import Mathlib

/-!
Verification model of `get_blrindus_data.py` (KIADB plot-data scraper).

The Python module is embedded shallowly:

* Python dicts whose values are observed only through string comparisons are
  modelled as association lists `List (String × String)` with first-match
  lookup (`getA`); Python dict keys are unique, so first-match lookup agrees
  with dict lookup.
* A network response is modelled by the data the code inspects: the primary
  JSON endpoint yields either a network failure (`make_request` returned
  `None`) or a body whose `"d"` member is absent or is a raw string paired
  with the outcome of `json.loads` on it.  `json.loads` is external; it is
  modelled pointwise by carrying its outcome alongside the raw string.
* Exceptions that escape `process_plotcode` are modelled with `Except`:
  a `.error` value corresponds to an uncaught Python exception propagating
  out of the call.
* Machine integers do not occur; suffixes are small `Nat`s parsed from two
  decimal digits.
-/

set_option maxRecDepth 8000
set_option maxHeartbeats 2000000

namespace Kiadb

/-- A Python dict restricted to string values, as a key-unique association
list.  Values the scraper stores are JSON scalars; every comparison the code
performs on them is a string comparison, so strings suffice. -/
abbrev Dict := List (String × String)

/-- First-match association lookup: the model of `d[k]` / `d.get(k)`. -/
def getA (d : Dict) (k : String) : Option String :=
  match d with
  | [] => none
  | (k', v) :: rest => if k' = k then some v else getA rest k

/-- One column of the Python `field_mapping` table: the value under a CSV
field name is either `None`, a single source key, or a list of candidate
source keys (first key present in the payload wins). -/
inductive PyKey where
  | noneK : PyKey
  | strK : String → PyKey
  | listK : List String → PyKey
deriving DecidableEq

/-- `field_mapping[csv_field]["primary"] / ["iis"]` for one CSV field.
The `arcgis` column of the Python table is never read by
`process_plotcode` and is omitted. -/
structure FieldSpec where
  name : String
  primary : PyKey
  iis : PyKey
deriving DecidableEq

/-- `for field in fields: if field in details: ... break` — the value under
the first candidate key present in the payload. -/
def lookupFirst : List String → Dict → Option String
  | [], _ => none
  | k :: rest, d =>
      match getA d k with
      | some v => some v
      | none => lookupFirst rest d

/-- Looking a `PyKey` up in a payload dict: `None` yields nothing, a single
key is looked up directly, a key list takes the first key present — exactly
the two branches (`isinstance(primary_field, list)` vs plain key) of the
mapping loops in `process_plotcode`. -/
def keyLookup (k : PyKey) (d : Dict) : Option String :=
  match k with
  | .noneK => none
  | .strK s => getA d s
  | .listK ks => lookupFirst ks d

/-- The `field_mapping` table of `get_blrindus_data.py` (lines 21–58),
restricted to the `primary` and `iis` columns that `process_plotcode`
reads. -/
def field_mapping : List FieldSpec :=
  [ ⟨"District Name", .strK "dstr", .noneK⟩,
    ⟨"Name of the Industrial Area", .strK "nmindar", .noneK⟩,
    ⟨"Project Approved By", .strK "prjapr", .noneK⟩,
    ⟨"Plot Number", .strK "plno", .noneK⟩,
    ⟨"Plot Category", .noneK, .strK "plotcat"⟩,
    ⟨"Plot Size", .strK "pltar", .strK "plotsize"⟩,
    ⟨"Plot Rate", .noneK, .strK "plotrate"⟩,
    ⟨"Maintenance Charge", .noneK, .strK "mainchare"⟩,
    ⟨"Plot Survey No", .noneK, .strK "plotsurno"⟩,
    ⟨"Reservation", .strK "rsvr", .noneK⟩,
    ⟨"Area in acres", .strK "pltar", .strK "plotsize"⟩,
    ⟨"Plot Status", .strK "plst", .noneK⟩,
    ⟨"Date of Allotment", .strK "dtaltm", .noneK⟩,
    ⟨"Name of Allottee", .strK "nmalt", .noneK⟩,
    ⟨"Allottee Phone", .noneK,
      .listK ["ownphone", "phone", "contact_no", "mobile", "telephone", "allottee_phone"]⟩,
    ⟨"Allottee Email", .noneK,
      .listK ["ownemail", "email", "email_id", "contact_email", "allottee_email"]⟩,
    ⟨"Address of the Allottee", .strK "addalt", .noneK⟩,
    ⟨"Nature Of Industry", .strK "ntrind", .noneK⟩,
    ⟨"Due date for payment", .strK "ddtpmt", .noneK⟩,
    ⟨"Date of Possession", .strK "dtpss", .noneK⟩,
    ⟨"Date of Lease Agreement Executed", .strK "dtleagrex", .noneK⟩,
    ⟨"Stipulated time for commencement of production", .strK "stcmprd", .noneK⟩,
    ⟨"Extension of time Granted", .strK "extgrt", .noneK⟩,
    ⟨"Implementation Status", .strK "implst", .noneK⟩,
    ⟨"Notice under 34-B issued", .strK "n34b", .noneK⟩,
    ⟨"Remarks", .strK "remark", .noneK⟩,
    ⟨"ULPIN", .strK "ulpin", .noneK⟩,
    ⟨"Preapproved Clearances Permissions", .strK "preappoved_clearances_permissions", .noneK⟩,
    ⟨"Preapproved Clearance Details", .strK "preappoved_clearances_permissions_details", .noneK⟩,
    ⟨"Water Availability", .strK "water_availability", .noneK⟩,
    ⟨"Electric Power Availability", .strK "electricpoweravailability", .noneK⟩,
    ⟨"Gaspipeline Connectivity", .strK "gaspipeline_connectivity", .noneK⟩,
    ⟨"OFC", .strK "ofc", .noneK⟩,
    ⟨"STP", .strK "stp", .noneK⟩,
    ⟨"WTP", .strK "wtp", .noneK⟩,
    ⟨"ETP", .strK "etp", .noneK⟩ ]

/-- The output row built by `process_plotcode`: a dict keyed by `"Plotcode"`
plus every CSV field name. -/
abbrev Row := List (String × String)

/-- `row[k] = v` on an existing key: replaces the value stored under `k`,
leaves every other entry unchanged (Python dict item assignment; all keys
assigned by the mapping loops already exist in the row). -/
def setField : Row → String → String → Row
  | [], _, _ => []
  | (a, b) :: rest, k, v =>
      if a = k then (a, v) :: setField rest k v else (a, b) :: setField rest k v

/-- Lines 139–141: `row = {"Plotcode": plotcode}` then every
`field_mapping` key initialized to `"N/A"`. -/
def initRow (plotcode : String) : Row :=
  ("Plotcode", plotcode) :: field_mapping.map (fun fm => (fm.name, "N/A"))

/-- One iteration of the primary mapping loop (lines 167–179): if the
`primary` key (or the first key of the key list) is present in the payload,
the row value is overwritten with the payload value — with no emptiness
check on the value. -/
def stepPrim (details : Dict) (r : Row) (fm : FieldSpec) : Row :=
  match keyLookup fm.primary details with
  | some v => setField r fm.name v
  | none => r

/-- Lines 167–179: the primary (`getdeatilsforidentifier`) mapping loop. -/
def applyPrimary (details : Dict) (row : Row) : Row :=
  field_mapping.foldl (stepPrim details) row

/-- One iteration of the secondary mapping loop (lines 192–204): a CSV
field is filled from the iis payload only when its current row value is
still the `"N/A"` sentinel. -/
def stepIis (iis : Dict) (r : Row) (fm : FieldSpec) : Row :=
  if getA r fm.name = some "N/A" then
    match keyLookup fm.iis iis with
    | some v => setField r fm.name v
    | none => r
  else r

/-- Lines 192–204: the secondary (`getplotiisdetails`) mapping loop. -/
def applyIis (iis : Dict) (row : Row) : Row :=
  field_mapping.foldl (stepIis iis) row

/-- Line 190–191: `if iis_details and isinstance(iis_details, list) and
iis_details: iis_details = iis_details[0]` then the merge loop — the iis
merge runs only when the decoded iis payload is a nonempty list, with its
first element. -/
def applyIisList (xs : List Dict) (row : Row) : Row :=
  match xs with
  | [] => row
  | x :: _ => applyIis x row

/-- Outcome of `json.loads` on an embedded payload string, carried as an
oracle next to the raw string.  Decoded lists are restricted to lists of
(string-valued) objects: payloads whose list elements are not objects would
crash the Python callers in ways none of the checked claims concern. -/
inductive Parsed where
  | decodeErr : Parsed
  | val : List Dict → Parsed
  | nonList : Parsed

/-- A primary-endpoint call outcome as `process_plotcode` observes it:
`fail` = `make_request` returned `None` (network/timeout/HTTP error);
`ok d` = a JSON body whose `"d"` member is `d` — absent, or a raw string
(inspected with `== "\"Wrong Input\""` and for truthiness) paired with its
`json.loads` outcome. -/
inductive PrimResp where
  | fail : PrimResp
  | ok : Option (String × Parsed) → PrimResp

/-- Outcome of `json.loads` on a SOAP `Result` text.  Modelled restriction:
an embedded SOAP payload that decodes is assumed to decode to a JSON array
of objects (other truthy shapes would crash the `details[0]` caller and are
outside the checked claims). -/
inductive SParsed where
  | decodeErr : SParsed
  | val : List Dict → SParsed

/-- A SOAP-endpoint call outcome as `soap_fallback` observes it:
`netFail` = inner `make_request` returned `None`;
`xmlErr` = `ET.fromstring` cannot parse the body;
`noResult` = the envelope has no `{method}Result` element
(`root.find(...)` is `None`);
`resultNil` = the element exists but its text is `None`;
`result s p` = the element text is `s`, with `json.loads` outcome `p`. -/
inductive SoapResp where
  | netFail : SoapResp
  | xmlErr : SoapResp
  | noResult : SoapResp
  | resultNil : SoapResp
  | result : String → SParsed → SoapResp

/-- An uncaught Python exception escaping the fetch:
`xmlParseError` = `xml.etree.ElementTree.ParseError` from `ET.fromstring`;
`attrError` = `AttributeError` from `root.find(...).text` when the Result
element is missing;
`jsonDecodeError` = `json.JSONDecodeError` from an unguarded
`json.loads`. -/
inductive PyExn where
  | xmlParseError : PyExn
  | attrError : PyExn
  | jsonDecodeError : PyExn
deriving DecidableEq

/-- `soap_fallback` (lines 101–114).  The `backoff` decorator retries only
on `requests.RequestException`, which `make_request` catches internally, so
each invocation performs exactly one transport attempt; parse failures
(`ParseError`, `AttributeError`, `JSONDecodeError`) are not retried and
escape as exceptions, modelled as `.error`. -/
def soap_fallback (r : SoapResp) : Except PyExn (List Dict) :=
  match r with
  | .netFail => .ok []
  | .xmlErr => .error .xmlParseError
  | .noResult => .error .attrError
  | .resultNil => .ok []
  | .result s p =>
      if s = "" then .ok []
      else
        match p with
        | .decodeErr => .error .jsonDecodeError
        | .val xs => .ok xs

/-- A transport call started by one `process_plotcode` invocation, in
order: the primary JSON request and the SOAP fallback request, for each of
the two detail endpoints.  Each constructor marks one `make_request`
invocation (attempted, whether or not it succeeds). -/
inductive Call where
  | primaryDetails : Call
  | soapDetails : Call
  | primaryIis : Call
  | soapIis : Call
deriving DecidableEq

/-- The network environment one `process_plotcode` call runs against: the
outcome of each of the (up to) four transport calls it can make. -/
structure Env where
  primDetails : PrimResp
  soapDetails : SoapResp
  primIis : PrimResp
  soapIis : SoapResp

/-- Result of one `process_plotcode` call: the returned value (`.ok none` =
Python `None`/Skip, `.ok (some row)` = a merged row, `.error e` = an
uncaught exception escaping the call), the invalid-code cache after the
call, and the ordered trace of transport calls started. -/
structure ProcResult where
  out : Except PyExn (Option Row)
  cache : Finset String
  trace : List Call

/-- Lines 162–206 of `process_plotcode`, from the `plst` eligibility check
onward: non-`"Allotted"` records are skipped; otherwise the primary mapping
loop runs, then the iis endpoint is called (with SOAP fallback on network
failure) and the iis merge loop runs.  The unguarded
`json.loads(iis_details.get("d", "[]"))` at line 188 escapes as
`jsonDecodeError` on a malformed truthy `"d"`. -/
def afterDetails (cache : Finset String) (plotcode : String) (env : Env)
    (details : Dict) (t : List Call) : ProcResult :=
  if getA details "plst" ≠ some "Allotted" then ⟨.ok none, cache, t⟩
  else
    let row1 := applyPrimary details (initRow plotcode)
    match env.primIis with
    | .fail =>
        match soap_fallback env.soapIis with
        | .error e => ⟨.error e, cache, t ++ [.primaryIis, .soapIis]⟩
        | .ok xs => ⟨.ok (some (applyIisList xs row1)), cache, t ++ [.primaryIis, .soapIis]⟩
    | .ok none => ⟨.ok (some row1), cache, t ++ [.primaryIis]⟩
    | .ok (some (s, p)) =>
        if s = "" then ⟨.ok (some row1), cache, t ++ [.primaryIis]⟩
        else
          match p with
          | .decodeErr => ⟨.error .jsonDecodeError, cache, t ++ [.primaryIis]⟩
          | .val xs => ⟨.ok (some (applyIisList xs row1)), cache, t ++ [.primaryIis]⟩
          | .nonList => ⟨.ok (some row1), cache, t ++ [.primaryIis]⟩

/-- `process_plotcode` (lines 133–206).  A cached-invalid code returns
`None` before any transport call.  Otherwise the primary details endpoint
is called; on network failure the SOAP fallback is used; on a successful
response the `"Wrong Input"` sentinel or an absent/empty `"d"` marks the
code invalid in the cache and returns `None` (no fallback); a `"d"` that
fails `json.loads` is caught (lines 158–160) and returns `None`; otherwise
the first element of the decoded list (or `{}`) flows into
`afterDetails`. -/
def process_plotcode (cache : Finset String) (plotcode : String) (env : Env) : ProcResult :=
  if plotcode ∈ cache then ⟨.ok none, cache, []⟩
  else
    match env.primDetails with
    | .fail =>
        match soap_fallback env.soapDetails with
        | .error e => ⟨.error e, cache, [.primaryDetails, .soapDetails]⟩
        | .ok xs =>
            afterDetails cache plotcode env (xs.headD []) [.primaryDetails, .soapDetails]
    | .ok none => ⟨.ok none, insert plotcode cache, [.primaryDetails]⟩
    | .ok (some (s, p)) =>
        if s = "\"Wrong Input\"" ∨ s = "" then
          ⟨.ok none, insert plotcode cache, [.primaryDetails]⟩
        else
          match p with
          | .decodeErr => ⟨.ok none, cache, [.primaryDetails]⟩
          | .val xs => afterDetails cache plotcode env (xs.headD []) [.primaryDetails]
          | .nonList => afterDetails cache plotcode env [] [.primaryDetails]

/-- Whether a successful primary response is treated as "invalid input"
(line 151): the `"d"` member equals the `"Wrong Input"` sentinel, is
absent, or is the empty (falsy) string. -/
def primInvalid : PrimResp → Bool
  | .fail => false
  | .ok none => true
  | .ok (some (s, _)) => s = "\"Wrong Input\"" ∨ s = ""

/-! ### Code-space exploration (module level, lines 277–391)

Python string slicing is by characters; it is modelled on `String.data`
(`List Char`).  Codes here are ASCII, so character-level slicing matches. -/

/-- Python `s[:n]`. -/
def pyTake (s : String) (n : Nat) : String := ⟨s.data.take n⟩

/-- Python `s[n:]`. -/
def pyDrop (s : String) (n : Nat) : String := ⟨s.data.drop n⟩

/-- Python `s.isdigit()` for the ASCII strings occurring here: nonempty and
all decimal digits. -/
def isDigits (s : String) : Bool := s ≠ "" && s.data.all Char.isDigit

/-- Python `int(s)` on a decimal-digit string. -/
def toNatDigits (s : String) : Nat :=
  s.data.foldl (fun n c => n * 10 + (c.toNat - 48)) 0

/-- Python `f"{i:02d}"`: decimal digits of `i`, left-padded with `'0'` to
width 2. -/
def fmtSuffix (i : Nat) : String :=
  if i < 10 then ⟨'0' :: Nat.toDigits 10 i⟩ else ⟨Nat.toDigits 10 i⟩

/-- Python `range(a, b)` as a list. -/
def pyRange (a b : Nat) : List Nat := List.range' a (b - a)

/-- The body shared by both generation phases (lines 362–367 and 368–373):
for an unseen suffix `i`, the candidate code `base + f"{i:02d}"` is emitted
and `i` marked seen, provided the code has length 14 and has not been
processed already; otherwise the state is unchanged (in particular an
already-processed suffix is *not* marked seen). -/
def stepSuffix (base : String) (processed : Finset String)
    (st : List String × Finset Nat) (i : Nat) : List String × Finset Nat :=
  if i ∈ st.2 then st
  else
    let code := base ++ fmtSuffix i
    if code.length = 14 ∧ code ∉ processed then (st.1 ++ [code], insert i st.2)
    else st

/-- Phase 1 of the fallback code generation (lines 361–367): the radius-5
window `range(max(0, s-5), min(100, s+6))` around each known suffix `s`,
in order. -/
def genPhase1 (base : String) (known : List Nat) (processed : Finset String) :
    List String × Finset Nat :=
  known.foldl
    (fun st s => (pyRange (s - 5) (min 100 (s + 6))).foldl (stepSuffix base processed) st)
    ([], ∅)

/-- Fallback code generation for one base (lines 360–373): phase 1 expands
a radius-5 window around each known suffix; phase 2 sweeps `range(100)`
over the suffixes not yet seen.  Returns the emitted codes (in order) and
the seen-suffix set. -/
def genForBase (base : String) (known : List Nat) (processed : Finset String) :
    List String × Finset Nat :=
  (List.range 100).foldl (stepSuffix base processed) (genPhase1 base known processed)

/-- Insert into an ascending list, keeping order. -/
def insSorted (i : Nat) : List Nat → List Nat
  | [] => [i]
  | j :: rest => if i ≤ j then i :: j :: rest else j :: insSorted i rest

/-- Python `sorted(s)` for a duplicate-free collection of naturals
(insertion sort). -/
def sortNats (l : List Nat) : List Nat := l.foldr insSorted []

/-- Lines 357–373: the full fallback probe list, concatenating the per-base
generation over the observed bases.  `seen_suffixes` is keyed per base and
`pltcodes` only appended to, so the shared Python state is equivalent to
this per-base concatenation.  The iteration order of the Python set
`pltcode_bases` is unspecified; it is modelled by the insertion-ordered
base list maintained during discovery. -/
def genPltcodes (bases : List String) (known : String → List Nat)
    (processed : Finset String) : List String :=
  bases.foldl (fun acc b => acc ++ (genForBase b (sortNats (known b)) processed).1) []

/-! ### Spatial discovery (lines 300–315) -/

/-- Discovery state: `processed_plotcodes`, the `plotcodes` fetch list (in
submission order, concatenated over batches), the observed `pltcode_bases`
(insertion-ordered) and `known_suffixes`. -/
structure Disc where
  processed : Finset String
  plotcodes : List String
  bases : List String
  known : String → List Nat

/-- Lines 301–315 for one spatial feature's `plotcode` attribute (a falsy /
missing attribute is modelled as `""`): skip falsy or already-processed
codes; otherwise record the code as processed and queue it for fetching;
additionally, when the code has length 14 and an all-digit suffix region,
decompose it into `(base, suffix)` and update the base index. -/
def discStep (st : Disc) (c : String) : Disc :=
  if c = "" ∨ c ∈ st.processed then st
  else
    let st1 : Disc :=
      { st with processed := insert c st.processed, plotcodes := st.plotcodes ++ [c] }
    if c.length = 14 ∧ isDigits (pyDrop c 12) then
      let b := pyTake c 12
      let s := toNatDigits (pyDrop c 12)
      { st1 with
        bases := if b ∈ st1.bases then st1.bases else st1.bases ++ [b],
        known := fun x =>
          if x = b then (if s ∈ st1.known x then st1.known x else st1.known x ++ [s])
          else st1.known x }
    else st1

/-- The discovery pass over all spatial features of an area run (batches
concatenated in query order), starting from the fresh per-area state. -/
def discRun (features : List String) : Disc :=
  features.foldl discStep ⟨∅, [], [], fun _ => []⟩

/-! ### Reconciliation and fallback iteration (lines 329–391)

The per-code fetch is abstracted as a deterministic
`fetch : String → Option Row` — the outcome of `process_plotcode` for a
code under the run's network environment (`none` = Skip).  The expected
identifier set comes from the external status-listing service and is a
parameter. -/

/-- Line 346: identifiers extracted from the discovery-phase rows — the set
of `row.get("Plot Number", "N/A")` over rows whose `"Plot Number"` differs
from `"N/A"` (a row lacking the key would contribute the default
`"N/A"`). -/
def extractedPlnos (rows : List Row) : Finset String :=
  (rows.filterMap (fun r =>
    if getA r "Plot Number" = some "N/A" then none
    else some ((getA r "Plot Number").getD "N/A"))).toFinset

/-- Lines 354–356: when no base was observed, fall back to the hard-coded
default base. -/
def basesOrDefault (bases : List String) : List String :=
  if bases = [] then ["Z06572016300"] else bases

/-- State of the fallback result-draining loop (lines 381–391):
`extracted_data`, `extracted_plnos`, `missing_plnos`,
`processed_plotcodes`. -/
structure DrainSt where
  data : List Row
  extracted : Finset String
  missing : Finset String
  processed : Finset String

/-- The `"Plot Number"` of a fetch outcome (`row.get("Plot Number")`,
`None`-propagating). -/
def plnoOf (r : Option Row) : Option String :=
  r.bind (fun row => getA row "Plot Number")

/-- Lines 381–391: drain the completed fallback futures in order.  A
returned row whose `"Plot Number"` is in the current missing set is
appended to the results, its identifier added to `extracted_plnos`, its
code to `processed_plotcodes`, and `missing_plnos` recomputed; the loop
breaks as soon as the missing set is empty.  (`as_completed` yields in
completion order, which is unspecified; the model drains in submission
order.) -/
def drain (expected : Finset String) :
    List (String × Option Row) → DrainSt → DrainSt
  | [], st => st
  | (_, r) :: rest, st =>
      match plnoOf r with
      | none => drain expected rest st
      | some p =>
          if p ∈ st.missing then
            let row := r.getD []
            let ex := insert p st.extracted
            let st' : DrainSt :=
              { data := st.data ++ [row], extracted := ex, missing := expected \ ex,
                processed := insert ((getA row "Plotcode").getD "") st.processed }
            if st'.missing = ∅ then st' else drain expected rest st'
          else drain expected rest st

/-- Discovery-phase extracted rows (lines 317–327): every queued plotcode
is fetched; `Skip` results are dropped. -/
def extractedData (features : List String) (fetch : String → Option Row) : List Row :=
  (discRun features).plotcodes.filterMap fetch

/-- Line 347: the initial missing set. -/
def missing0 (features : List String) (fetch : String → Option Row)
    (expected : Finset String) : Finset String :=
  expected \ extractedPlnos (extractedData features fetch)

/-- Lines 354–375: the fallback probe list for a run (generated only when
the missing set is nonempty; the list itself depends only on discovery
state). -/
def probesOf (features : List String) : List String :=
  genPltcodes (basesOrDefault (discRun features).bases) (discRun features).known
    (discRun features).processed

/-- Lines 376–380: the executor work list.  Every generated probe is
submitted to the `ThreadPoolExecutor` in the dict comprehension *before*
any result is drained. -/
def fallbackResults (features : List String) (fetch : String → Option Row) :
    List (String × Option Row) :=
  (probesOf features).map (fun c => (c, fetch c))

/-- The codes actually fetched during the fallback phase.  All generated
probes are submitted before draining starts, and `ThreadPoolExecutor`
shutdown (on leaving the `with` block, including via `break`) waits for
queued tasks without cancelling them — so every generated probe is
fetched, regardless of when the drain loop breaks. -/
def fallbackFetched (features : List String) (fetch : String → Option Row)
    (expected : Finset String) : List String :=
  if missing0 features fetch expected = ∅ then [] else probesOf features

/-- The drain-loop start state: discovery results plus the initial missing
set. -/
def initDrainSt (features : List String) (fetch : String → Option Row)
    (expected : Finset String) : DrainSt :=
  ⟨extractedData features fetch, extractedPlnos (extractedData features fetch),
    missing0 features fetch expected, (discRun features).processed⟩

/-- End state of one area run (lines 345–391): when nothing is missing the
fallback iteration is skipped, otherwise the probe results are drained. -/
def finalState (features : List String) (fetch : String → Option Row)
    (expected : Finset String) : DrainSt :=
  if missing0 features fetch expected = ∅ then initDrainSt features fetch expected
  else drain expected (fallbackResults features fetch) (initDrainSt features fetch expected)

/-- Invariant of the generation state over an empty exclude set: the
emitted codes are exactly the codes of the seen suffixes, without
duplicates, and all seen suffixes are in range. -/
def GenInv (base : String) (st : List String × Finset Nat) : Prop :=
  st.1.Nodup ∧ (∀ c, c ∈ st.1 ↔ ∃ i ∈ st.2, c = base ++ fmtSuffix i) ∧
    st.2 ⊆ Finset.range 100

/-- Every seen suffix has its code in the emitted list (with any exclude
set): the generation only marks a suffix seen when it appends the
corresponding code. -/
def SeenCodes (base : String) (st : List String × Finset Nat) : Prop :=
  ∀ j ∈ st.2, base ++ fmtSuffix j ∈ st.1

/-- Invariant of the discovery state: every observed base has length 12
(it is the 12-char prefix of a well-formed 14-char code), and the
processed set is exactly the set of queued plotcodes. -/
def DiscInv (d : Disc) : Prop :=
  (∀ b ∈ d.bases, b.length = 12) ∧ (∀ c, c ∈ d.processed ↔ c ∈ d.plotcodes)

/-- A concrete fetch corpus for witnesses: exactly one code resolves to an
allotted record with Plot Number `"P1"`. -/
def fetchW : String → Option Row := fun c =>
  if c = "A0000000000101" then some [("Plotcode", c), ("Plot Number", "P1")] else none

/-! ## Lemmas about the field merge -/

theorem getA_setField_same (r : Row) (k v : String) :
    getA (setField r k v) k = (getA r k).map (fun _ => v) := by
  induction r with
  | nil => rfl
  | cons kv rest ih =>
      obtain ⟨a, b⟩ := kv
      by_cases h : a = k
      · subst h
        simp [setField, getA]
      · simp [setField, getA, h, ih]

theorem getA_setField_other (r : Row) (k v k' : String) (h : k' ≠ k) :
    getA (setField r k v) k' = getA r k' := by
  induction r with
  | nil => rfl
  | cons kv rest ih =>
      obtain ⟨a, b⟩ := kv
      by_cases ha : a = k
      · subst ha
        simp [setField, getA, Ne.symm h, ih]
      · by_cases hb : a = k'
        · simp [setField, getA, ha, hb, h]
        · simp [setField, getA, ha, hb, ih]

theorem stepPrim_getA_other (d : Dict) (r : Row) (fm : FieldSpec) (n : String)
    (h : n ≠ fm.name) : getA (stepPrim d r fm) n = getA r n := by
  unfold stepPrim
  cases keyLookup fm.primary d with
  | none => rfl
  | some v => exact getA_setField_other r fm.name v n h

theorem stepIis_getA_other (i : Dict) (r : Row) (fm : FieldSpec) (n : String)
    (h : n ≠ fm.name) : getA (stepIis i r fm) n = getA r n := by
  unfold stepIis
  by_cases hc : getA r fm.name = some "N/A"
  · simp only [if_pos hc]
    cases keyLookup fm.iis i with
    | none => rfl
    | some v => exact getA_setField_other r fm.name v n h
  · simp [if_neg hc]

theorem foldl_stepPrim_getA_notMem (d : Dict) (L : List FieldSpec) (r : Row) (n : String)
    (h : ∀ fm ∈ L, n ≠ fm.name) :
    getA (L.foldl (stepPrim d) r) n = getA r n := by
  induction L generalizing r with
  | nil => rfl
  | cons g L' ih =>
      simp only [List.foldl_cons]
      rw [ih _ (fun fm hm => h fm (List.mem_cons_of_mem g hm))]
      exact stepPrim_getA_other d r g n (h g (List.mem_cons_self g L'))

theorem foldl_stepIis_getA_notMem (i : Dict) (L : List FieldSpec) (r : Row) (n : String)
    (h : ∀ fm ∈ L, n ≠ fm.name) :
    getA (L.foldl (stepIis i) r) n = getA r n := by
  induction L generalizing r with
  | nil => rfl
  | cons g L' ih =>
      simp only [List.foldl_cons]
      rw [ih _ (fun fm hm => h fm (List.mem_cons_of_mem g hm))]
      exact stepIis_getA_other i r g n (h g (List.mem_cons_self g L'))

theorem foldl_stepPrim_getA (d : Dict) (L : List FieldSpec) (r : Row) (fm : FieldSpec)
    (hnd : (L.map (fun f => f.name)).Nodup) (hm : fm ∈ L) :
    getA (L.foldl (stepPrim d) r) fm.name =
      match keyLookup fm.primary d with
      | some v => (getA r fm.name).map (fun _ => v)
      | none => getA r fm.name := by
  induction L generalizing r with
  | nil => cases hm
  | cons g L' ih =>
      simp only [List.map_cons, List.nodup_cons] at hnd
      rcases List.mem_cons.mp hm with hfg | hfm
      · subst hfg
        simp only [List.foldl_cons]
        rw [foldl_stepPrim_getA_notMem d L' _ fm.name
          (fun f hf hn => hnd.1 (hn ▸ List.mem_map_of_mem (fun x => x.name) hf))]
        unfold stepPrim
        cases keyLookup fm.primary d with
        | none => rfl
        | some v => exact getA_setField_same r fm.name v
      · have hne : fm.name ≠ g.name := by
          intro he
          exact hnd.1 (he ▸ List.mem_map_of_mem (fun x => x.name) hfm)
        simp only [List.foldl_cons]
        rw [ih _ hnd.2 hfm, stepPrim_getA_other d r g fm.name hne]

theorem foldl_stepIis_getA (i : Dict) (L : List FieldSpec) (r : Row) (fm : FieldSpec)
    (hnd : (L.map (fun f => f.name)).Nodup) (hm : fm ∈ L) :
    getA (L.foldl (stepIis i) r) fm.name =
      if getA r fm.name = some "N/A" then
        match keyLookup fm.iis i with
        | some v => some v
        | none => some "N/A"
      else getA r fm.name := by
  induction L generalizing r with
  | nil => cases hm
  | cons g L' ih =>
      simp only [List.map_cons, List.nodup_cons] at hnd
      rcases List.mem_cons.mp hm with hfg | hfm
      · subst hfg
        simp only [List.foldl_cons]
        rw [foldl_stepIis_getA_notMem i L' _ fm.name
          (fun f hf hn => hnd.1 (hn ▸ List.mem_map_of_mem (fun x => x.name) hf))]
        unfold stepIis
        by_cases hc : getA r fm.name = some "N/A"
        · simp only [if_pos hc]
          cases keyLookup fm.iis i with
          | none => simp [hc]
          | some v => simp [getA_setField_same, hc]
        · simp [if_neg hc]
      · have hne : fm.name ≠ g.name := by
          intro he
          exact hnd.1 (he ▸ List.mem_map_of_mem (fun x => x.name) hfm)
        simp only [List.foldl_cons]
        rw [ih _ hnd.2 hfm, stepIis_getA_other i r g fm.name hne]

theorem field_names_nodup : (field_mapping.map (fun f => f.name)).Nodup := by decide

theorem field_names_ne_plotcode : ∀ fm ∈ field_mapping, fm.name ≠ "Plotcode" := by decide

theorem getA_map_names (L : List FieldSpec) (fm : FieldSpec) (hm : fm ∈ L) :
    getA (L.map (fun f => (f.name, "N/A"))) fm.name = some "N/A" := by
  induction L with
  | nil => cases hm
  | cons g L' ih =>
      simp only [List.map_cons, getA]
      by_cases h : g.name = fm.name
      · simp [h]
      · simp only [if_neg h]
        rcases List.mem_cons.mp hm with hfg | hfm
        · exact absurd (hfg ▸ rfl) h
        · exact ih hfm

theorem getA_initRow (pc : String) (fm : FieldSpec) (hm : fm ∈ field_mapping) :
    getA (initRow pc) fm.name = some "N/A" := by
  have hne : "Plotcode" ≠ fm.name := fun h => field_names_ne_plotcode fm hm h.symm
  unfold initRow
  simp only [getA, if_neg hne]
  exact getA_map_names field_mapping fm hm

/-- The merged value of one declared field, as computed by the two mapping
loops starting from the sentinel-initialized row. -/
theorem merged_field_eq (details iis : Dict) (pc : String) (fm : FieldSpec)
    (hm : fm ∈ field_mapping) :
    getA (applyIis iis (applyPrimary details (initRow pc))) fm.name =
      some (match keyLookup fm.primary details with
            | some v => if v = "N/A" then (keyLookup fm.iis iis).getD "N/A" else v
            | none => (keyLookup fm.iis iis).getD "N/A") := by
  have h0 : getA (initRow pc) fm.name = some "N/A" := getA_initRow pc fm hm
  have h1 := foldl_stepPrim_getA details field_mapping (initRow pc) fm field_names_nodup hm
  have h2 := foldl_stepIis_getA iis field_mapping (applyPrimary details (initRow pc)) fm
    field_names_nodup hm
  unfold applyIis
  rw [h2]
  unfold applyPrimary
  rw [h1, h0]
  cases hk : keyLookup fm.primary details with
  | none =>
      simp only [Option.map]
      cases hki : keyLookup fm.iis iis with
      | none => simp
      | some w => simp
  | some v =>
      simp only [Option.map]
      by_cases hv : v = "N/A"
      · subst hv
        simp only [if_pos rfl]
        cases hki : keyLookup fm.iis iis with
        | none => simp
        | some w => simp
      · simp only [if_neg hv]
        rw [if_neg (by simpa using hv)]

/-! ## Claim C1 — merge precedence -/

/-- C1, counterexample.  The claim fails on the code in two ways, shown at
explicit inputs.  (1) The primary payload supplies `"dstr"` with the empty
string; the claim says the `"N/A"` sentinel is overwritten only by a
non-empty value, yet the merged `"District Name"` becomes `""` — and the
same row is what `process_plotcode` returns for a fetched code.  (2) The
primary payload supplies `"pltar"` with the present, non-empty value
`"N/A"`; the claim says the merged record then reflects the primary value,
yet the iis value `"5"` appears instead, because the mapping loop cannot
distinguish a primary value `"N/A"` from the untouched sentinel. -/
theorem C1_counterexample :
    getA [("dstr", ""), ("plst", "Allotted")] "dstr" = some "" ∧
    (process_plotcode ∅ "PC1"
        ⟨.ok (some ("x", .val [[("dstr", ""), ("plst", "Allotted")]])), .netFail,
          .ok none, .netFail⟩).out
      = .ok (some (applyPrimary [("dstr", ""), ("plst", "Allotted")] (initRow "PC1"))) ∧
    getA (applyPrimary [("dstr", ""), ("plst", "Allotted")] (initRow "PC1")) "District Name"
      = some "" ∧
    getA [("pltar", "N/A"), ("plst", "Allotted")] "pltar" = some "N/A" ∧
    getA (applyIis [("plotsize", "5")]
        (applyPrimary [("pltar", "N/A"), ("plst", "Allotted")] (initRow "PC1"))) "Plot Size"
      = some "5" :=
  ⟨by decide, rfl, by decide, by decide, by decide⟩

/-- C1, amended.  For every declared output field, the merged row value is
exactly: the primary value whenever the primary payload supplies the field
key — even when the value is empty — except that a primary value literally
equal to the `"N/A"` sentinel is indistinguishable from "unknown"; the
secondary (iis) value appears exactly when the field still equals the
sentinel after the primary mapping; a field supplied by neither source
keeps `"N/A"`. -/
theorem C1_merge_precedence (details iis : Dict) (pc : String) (fm : FieldSpec)
    (hm : fm ∈ field_mapping) :
    getA (applyIis iis (applyPrimary details (initRow pc))) fm.name =
      some (match keyLookup fm.primary details with
            | some v => if v = "N/A" then (keyLookup fm.iis iis).getD "N/A" else v
            | none => (keyLookup fm.iis iis).getD "N/A") :=
  merged_field_eq details iis pc fm hm

/-- C1, witness: the amended theorem applied to the `"Plot Size"` field
with a primary payload supplying `"2"` and an iis payload supplying
`"5"`: the primary value wins. -/
theorem C1_merge_precedence_witness :
    (⟨"Plot Size", .strK "pltar", .strK "plotsize"⟩ : FieldSpec) ∈ field_mapping ∧
    getA (applyIis [("plotsize", "5")] (applyPrimary [("pltar", "2")] (initRow "PC")))
      "Plot Size" = some "2" :=
  ⟨by decide, by
    rw [C1_merge_precedence [("pltar", "2")] [("plotsize", "5")] "PC"
      ⟨"Plot Size", .strK "pltar", .strK "plotsize"⟩ (by decide)]
    decide⟩

/-! ## Lemmas about `process_plotcode` -/

theorem afterDetails_cache (cache : Finset String) (pc : String) (env : Env)
    (d : Dict) (t : List Call) : (afterDetails cache pc env d t).cache = cache := by
  unfold afterDetails
  split
  · rfl
  · cases env.primIis with
    | fail => cases soap_fallback env.soapIis <;> rfl
    | ok o =>
        cases o with
        | none => rfl
        | some sp =>
            obtain ⟨s, p⟩ := sp
            by_cases hs : s = ""
            · simp only [if_pos hs]
            · simp only [if_neg hs]
              cases p <;> rfl

theorem afterDetails_trace_mem (cache : Finset String) (pc : String) (env : Env)
    (d : Dict) (t : List Call) (c : Call) (hc : c ∈ t) :
    c ∈ (afterDetails cache pc env d t).trace := by
  unfold afterDetails
  split
  · exact hc
  · cases env.primIis with
    | fail =>
        cases soap_fallback env.soapIis <;> exact List.mem_append_left _ hc
    | ok o =>
        cases o with
        | none => exact List.mem_append_left _ hc
        | some sp =>
            obtain ⟨s, p⟩ := sp
            by_cases hs : s = ""
            · simp only [if_pos hs]
              exact List.mem_append_left _ hc
            · simp only [if_neg hs]
              cases p <;> exact List.mem_append_left _ hc

/-! ## Claim C6 — invalid-cache monotonicity and short-circuit -/

/-- C6.  The invalid-code cache grows monotonically across any call, and a
call on a code already in the cache returns Skip (`None`) at once: no
transport call of either detail source is started (empty trace) and the
cache is unchanged. -/
theorem C6_invalid_cache_shortcircuit :
    (∀ cache code env, cache ⊆ (process_plotcode cache code env).cache) ∧
    (∀ cache code env, code ∈ cache →
      process_plotcode cache code env = ⟨.ok none, cache, []⟩) := by
  constructor
  · intro cache code env
    obtain ⟨pd, sd, pi, si⟩ := env
    unfold process_plotcode
    by_cases h : code ∈ cache
    · simp only [if_pos h]
      exact Finset.Subset.refl cache
    · simp only [if_neg h]
      cases pd with
      | fail =>
          dsimp only
          cases hsf : soap_fallback sd with
          | error e => exact Finset.Subset.refl cache
          | ok xs =>
              rw [afterDetails_cache]
      | ok o =>
          cases o with
          | none => exact Finset.subset_insert code cache
          | some sp =>
              obtain ⟨s, p⟩ := sp
              dsimp only
              by_cases hs : s = "\"Wrong Input\"" ∨ s = ""
              · simp only [if_pos hs]
                exact Finset.subset_insert code cache
              · simp only [if_neg hs]
                cases p with
                | decodeErr => exact Finset.Subset.refl cache
                | val xs =>
                    rw [afterDetails_cache]
                | nonList =>
                    rw [afterDetails_cache]
  · intro cache code env h
    unfold process_plotcode
    simp only [if_pos h]

/-- C6, witness: a cached code is skipped with no transport call. -/
theorem C6_invalid_cache_shortcircuit_witness :
    ("A" ∈ ({"A"} : Finset String)) ∧
    process_plotcode {"A"} "A" ⟨.fail, .netFail, .fail, .netFail⟩
      = ⟨.ok none, {"A"}, []⟩ :=
  ⟨by decide, C6_invalid_cache_shortcircuit.2 {"A"} "A" _ (by decide)⟩

/-! ## Claim C10 — exactly when a code is marked invalid -/

/-- C10.  For an uncached code, the cache after the call gains the code
exactly when the primary detail response succeeded and its `"d"` payload is
the `"Wrong Input"` sentinel, absent, or empty (`primInvalid`); in every
other outcome — network-level primary failure (SOAP path), empty SOAP
result, payload failing JSON decoding — the cache is unchanged.  And every
call on an uncached code starts the primary transport request, so a code
not marked invalid is fetched over the network again when encountered
again. -/
theorem C10_cache_add_iff_primary_invalid (cache : Finset String) (code : String)
    (env : Env) (h : code ∉ cache) :
    (process_plotcode cache code env).cache
      = (if primInvalid env.primDetails then insert code cache else cache) ∧
    Call.primaryDetails ∈ (process_plotcode cache code env).trace := by
  obtain ⟨pd, sd, pi, si⟩ := env
  unfold process_plotcode
  simp only [if_neg h]
  cases pd with
  | fail =>
      simp only [primInvalid, Bool.false_eq_true, if_false]
      cases hsf : soap_fallback sd with
      | error e => exact ⟨rfl, List.mem_cons_self _ _⟩
      | ok xs =>
          exact ⟨afterDetails_cache cache code _ _ _,
            afterDetails_trace_mem cache code _ _ _ _ (List.mem_cons_self _ _)⟩
  | ok o =>
      cases o with
      | none => exact ⟨by simp [primInvalid], List.mem_cons_self _ _⟩
      | some sp =>
          obtain ⟨s, p⟩ := sp
          dsimp only
          by_cases hs : s = "\"Wrong Input\"" ∨ s = ""
          · simp only [if_pos hs, primInvalid]
            exact ⟨by simp [hs], List.mem_cons_self _ _⟩
          · simp only [if_neg hs, primInvalid]
            have hb : ¬(decide (s = "\"Wrong Input\"" ∨ s = "") = true) := by
              simpa using hs
            cases p with
            | decodeErr => exact ⟨by simp [hb], List.mem_cons_self _ _⟩
            | val xs =>
                refine ⟨?_, afterDetails_trace_mem cache code _ _ _ _ (List.mem_cons_self _ _)⟩
                rw [afterDetails_cache, if_neg hb]
            | nonList =>
                refine ⟨?_, afterDetails_trace_mem cache code _ _ _ _ (List.mem_cons_self _ _)⟩
                rw [afterDetails_cache, if_neg hb]

/-- C10, witness: an absent `"d"` payload marks the code invalid; the
primary transport call was started. -/
theorem C10_cache_add_iff_primary_invalid_witness :
    ("X" ∉ (∅ : Finset String)) ∧
    (process_plotcode ∅ "X" ⟨.ok none, .netFail, .ok none, .netFail⟩).cache
      = (if primInvalid (.ok none) then insert "X" ∅ else ∅) ∧
    Call.primaryDetails ∈
      (process_plotcode ∅ "X" ⟨.ok none, .netFail, .ok none, .netFail⟩).trace :=
  ⟨by decide,
    (C10_cache_add_iff_primary_invalid ∅ "X" _ (by decide)).1,
    (C10_cache_add_iff_primary_invalid ∅ "X" _ (by decide)).2⟩

/-! ## Claim C2 — what triggers the SOAP fallback -/

/-- C2, counterexample.  A primary detail response that succeeds with the
explicit `"Wrong Input"` sentinel does *not* trigger the SOAP fallback: the
transport trace of the call is exactly the primary request, with no
`soapDetails` entry, and the call returns Skip after caching the code —
contrary to the claim that the fallback is attempted "just as on a
network/timeout error". -/
theorem C2_counterexample :
    (process_plotcode ∅ "C2X"
        ⟨.ok (some ("\"Wrong Input\"", .nonList)), .netFail, .ok none, .netFail⟩).trace
      = [Call.primaryDetails] ∧
    Call.soapDetails ∉
      (process_plotcode ∅ "C2X"
        ⟨.ok (some ("\"Wrong Input\"", .nonList)), .netFail, .ok none, .netFail⟩).trace ∧
    (process_plotcode ∅ "C2X"
        ⟨.ok (some ("\"Wrong Input\"", .nonList)), .netFail, .ok none, .netFail⟩).out
      = .ok none :=
  ⟨by decide, by decide, rfl⟩

/-- C2, amended.  The SOAP fallback is attempted exactly on a network-level
primary failure: when `make_request` returns `None` the SOAP request is
started; when the primary response succeeds with the `"Wrong Input"`
sentinel the code is cached invalid and the call returns Skip with no SOAP
attempt. -/
theorem C2_fallback_on_network_failure_only (cache : Finset String) (code : String)
    (env : Env) (h : code ∉ cache) :
    (env.primDetails = .fail →
      Call.soapDetails ∈ (process_plotcode cache code env).trace) ∧
    (∀ p, env.primDetails = .ok (some ("\"Wrong Input\"", p)) →
      (process_plotcode cache code env).out = .ok none ∧
      (process_plotcode cache code env).cache = insert code cache ∧
      Call.soapDetails ∉ (process_plotcode cache code env).trace) := by
  obtain ⟨pd, sd, pi, si⟩ := env
  constructor
  · intro hpd
    subst hpd
    unfold process_plotcode
    simp only [if_neg h]
    cases hsf : soap_fallback sd with
    | error e => exact List.mem_cons_of_mem _ (List.mem_cons_self _ _)
    | ok xs =>
        exact afterDetails_trace_mem cache code _ _ _ _
          (List.mem_cons_of_mem _ (List.mem_cons_self _ _))
  · intro p hpd
    subst hpd
    unfold process_plotcode
    simp only [if_neg h, true_or, if_true]
    exact ⟨trivial, trivial, by decide⟩

/-- C2, witness: a network-failed primary detail request leads to a started
SOAP request for the same call. -/
theorem C2_fallback_on_network_failure_only_witness :
    ("Y" ∉ (∅ : Finset String)) ∧
    Call.soapDetails ∈
      (process_plotcode ∅ "Y" ⟨.fail, .xmlErr, .ok none, .netFail⟩).trace :=
  ⟨by decide,
    (C2_fallback_on_network_failure_only ∅ "Y" ⟨.fail, .xmlErr, .ok none, .netFail⟩
      (by decide)).1 rfl⟩

/-! ## Claim C3 — does a single-code fetch ever raise? -/

/-- C3, counterexample.  Two explicit inputs where a response whose payload
cannot be parsed as the expected structure makes the fetch raise instead of
returning Skip: (1) the primary request fails at network level and the SOAP
response lacks the expected `Result` element — `root.find(...).text` raises
`AttributeError`; (2) both primary requests succeed but the iis `"d"`
payload is malformed JSON — the unguarded `json.loads` at line 188 raises
`JSONDecodeError`.  Both exceptions propagate out of `process_plotcode`. -/
theorem C3_counterexample :
    (process_plotcode ∅ "C3X" ⟨.fail, .noResult, .ok none, .netFail⟩).out
      = .error PyExn.attrError ∧
    (process_plotcode ∅ "C3Y"
        ⟨.ok (some ("x", .val [[("plst", "Allotted")]])), .netFail,
          .ok (some ("bad", .decodeErr)), .netFail⟩).out
      = .error PyExn.jsonDecodeError :=
  ⟨rfl, rfl⟩

/-- C3, amended.  The containment the code actually provides: a malformed
embedded JSON payload on the *primary details* path is caught
(lines 155–160) and yields Skip without marking the cache; but parse
failures on the SOAP path escape as exceptions — e.g. an unparseable SOAP
envelope for the details call makes the fetch raise `ParseError` instead of
returning Skip. -/
theorem C3_decode_error_caught_on_primary_path (cache : Finset String) (code : String)
    (env : Env) (s : String) (h : code ∉ cache)
    (hpd : env.primDetails = .ok (some (s, .decodeErr)))
    (hw : s ≠ "\"Wrong Input\"") (he : s ≠ "") :
    ((process_plotcode cache code env).out = .ok none ∧
      (process_plotcode cache code env).cache = cache) ∧
    (∀ env' : Env, env'.primDetails = .fail → env'.soapDetails = .xmlErr →
      ∀ cache' code', code' ∉ cache' →
        (process_plotcode cache' code' env').out = .error PyExn.xmlParseError) := by
  constructor
  · obtain ⟨pd, sd, pi, si⟩ := env
    subst hpd
    unfold process_plotcode
    simp only [if_neg h]
    have hns : ¬(s = "\"Wrong Input\"" ∨ s = "") := by
      rintro (h1 | h2)
      · exact hw h1
      · exact he h2
    rw [if_neg hns]
    exact ⟨rfl, rfl⟩
  · intro env' hpd' hsd' cache' code' h'
    obtain ⟨pd', sd', pi', si'⟩ := env'
    subst hpd'
    subst hsd'
    unfold process_plotcode
    simp only [if_neg h']
    rfl

/-- C3, witness: the amended theorem at a concrete environment whose
primary details payload is truthy, not the sentinel, and malformed. -/
theorem C3_decode_error_caught_on_primary_path_witness :
    ("Z" ∉ (∅ : Finset String)) ∧
    (process_plotcode ∅ "Z"
        ⟨.ok (some ("zz", .decodeErr)), .netFail, .ok none, .netFail⟩).out = .ok none ∧
    (process_plotcode ∅ "Z"
        ⟨.ok (some ("zz", .decodeErr)), .netFail, .ok none, .netFail⟩).cache = ∅ :=
  ⟨by decide,
    ((C3_decode_error_caught_on_primary_path ∅ "Z"
      ⟨.ok (some ("zz", .decodeErr)), .netFail, .ok none, .netFail⟩ "zz"
      (by decide) rfl (by decide) (by decide)).1).1,
    ((C3_decode_error_caught_on_primary_path ∅ "Z"
      ⟨.ok (some ("zz", .decodeErr)), .netFail, .ok none, .netFail⟩ "zz"
      (by decide) rfl (by decide) (by decide)).1).2⟩

/-! ## Lemmas about the fallback code generation -/

theorem string_data_inj {a b : String} (h : a.data = b.data) : a = b := by
  cases a
  cases b
  exact congrArg String.mk h

theorem fmt_len : ∀ i < 100, (fmtSuffix i).length = 2 := by decide

theorem fmt_inj : ∀ i < 100, ∀ j < 100, fmtSuffix i = fmtSuffix j → i = j := by
  set_option maxRecDepth 4000 in decide

theorem code_inj (base : String) (i j : Nat) (hi : i < 100) (hj : j < 100)
    (h : base ++ fmtSuffix i = base ++ fmtSuffix j) : i = j := by
  apply fmt_inj i hi j hj
  apply string_data_inj
  have hd := congrArg String.data h
  rw [String.data_append, String.data_append] at hd
  exact List.append_cancel_left hd

theorem code_len (base : String) (i : Nat) (hb : base.length = 12) (hi : i < 100) :
    (base ++ fmtSuffix i).length = 14 := by
  rw [String.length_append, hb, fmt_len i hi]

/-- With an empty exclude set and a length-12 base, one generation step is
exactly: emit the code and mark the suffix seen, unless already seen. -/
theorem stepSuffix_empty (base : String) (st : List String × Finset Nat) (i : Nat)
    (hb : base.length = 12) (hi : i < 100) :
    stepSuffix base ∅ st i =
      if i ∈ st.2 then st else (st.1 ++ [base ++ fmtSuffix i], insert i st.2) := by
  unfold stepSuffix
  by_cases him : i ∈ st.2
  · simp [him]
  · simp only [if_neg him]
    rw [if_pos ⟨code_len base i hb hi, Finset.not_mem_empty _⟩]

theorem stepSuffix_inv (base : String) (st : List String × Finset Nat) (i : Nat)
    (hb : base.length = 12) (hi : i < 100) (h : GenInv base st) :
    GenInv base (stepSuffix base ∅ st i) := by
  rw [stepSuffix_empty base st i hb hi]
  by_cases him : i ∈ st.2
  · simpa [him] using h
  · simp only [if_neg him]
    obtain ⟨hnd, hiff, hsub⟩ := h
    have hnew : (base ++ fmtSuffix i) ∉ st.1 := by
      intro hc
      obtain ⟨j, hj, hje⟩ := (hiff _).mp hc
      have hj100 : j < 100 := Finset.mem_range.mp (hsub hj)
      exact him ((code_inj base i j hi hj100 hje) ▸ hj)
    refine ⟨?_, ?_, Finset.insert_subset (Finset.mem_range.mpr hi) hsub⟩
    · simp [List.nodup_append, hnd, hnew]
    · intro c
      simp only [List.mem_append, List.mem_singleton, Finset.mem_insert]
      constructor
      · rintro (hc | hc)
        · obtain ⟨j, hj, hje⟩ := (hiff c).mp hc
          exact ⟨j, Or.inr hj, hje⟩
        · exact ⟨i, Or.inl rfl, hc⟩
      · rintro ⟨j, (hj | hj), hje⟩
        · exact Or.inr (hj ▸ hje)
        · exact Or.inl ((hiff c).mpr ⟨j, hj, hje⟩)

theorem foldl_stepSuffix_inv (base : String) (l : List Nat)
    (st : List String × Finset Nat) (hb : base.length = 12)
    (hl : ∀ i ∈ l, i < 100) (h : GenInv base st) :
    GenInv base (l.foldl (stepSuffix base ∅) st) := by
  induction l generalizing st with
  | nil => exact h
  | cons j l' ih =>
      exact ih _ (fun i hi => hl i (List.mem_cons_of_mem j hi))
        (stepSuffix_inv base st j hb (hl j (List.mem_cons_self j l')) h)

theorem stepSuffix_seen_mono (base : String) (processed : Finset String)
    (st : List String × Finset Nat) (i : Nat) :
    st.2 ⊆ (stepSuffix base processed st i).2 := by
  unfold stepSuffix
  by_cases him : i ∈ st.2
  · simp [him]
  · simp only [if_neg him]
    split
    · exact Finset.subset_insert i st.2
    · exact Finset.Subset.refl st.2

theorem foldl_stepSuffix_seen_mono (base : String) (processed : Finset String)
    (l : List Nat) (st : List String × Finset Nat) :
    st.2 ⊆ (l.foldl (stepSuffix base processed) st).2 := by
  induction l generalizing st with
  | nil => exact Finset.Subset.refl st.2
  | cons j l' ih =>
      exact (stepSuffix_seen_mono base processed st j).trans (ih _)

theorem stepSuffix_seen_self (base : String) (st : List String × Finset Nat) (i : Nat)
    (hb : base.length = 12) (hi : i < 100) :
    i ∈ (stepSuffix base ∅ st i).2 := by
  rw [stepSuffix_empty base st i hb hi]
  by_cases him : i ∈ st.2
  · simpa [him] using him
  · simp [him]

theorem foldl_stepSuffix_seen_all (base : String) (l : List Nat)
    (st : List String × Finset Nat) (hb : base.length = 12)
    (hl : ∀ i ∈ l, i < 100) :
    ∀ i ∈ l, i ∈ (l.foldl (stepSuffix base ∅) st).2 := by
  induction l generalizing st with
  | nil => intro i hi; cases hi
  | cons j l' ih =>
      intro i hi
      rcases List.mem_cons.mp hi with hij | hil
      · subst hij
        exact List.foldl_cons _ _ ▸ foldl_stepSuffix_seen_mono base ∅ l' _
          (stepSuffix_seen_self base st i hb (hl i hi))
      · exact ih _ (fun k hk => hl k (List.mem_cons_of_mem j hk)) i hil

theorem pyRange_lt (s : Nat) : ∀ m ∈ pyRange (s - 5) (min 100 (s + 6)), m < 100 := by
  intro m hm
  unfold pyRange at hm
  rw [List.mem_range'_1] at hm
  by_cases hab : min 100 (s + 6) ≤ s - 5
  · rw [Nat.sub_eq_zero_of_le hab] at hm
    omega
  · have : s - 5 + (min 100 (s + 6) - (s - 5)) = min 100 (s + 6) :=
      Nat.add_sub_cancel' (le_of_not_le hab)
    omega

theorem range_lt (n : Nat) : ∀ m ∈ List.range n, m < n := fun m hm => List.mem_range.mp hm

theorem GenInv_init (base : String) : GenInv base ([], ∅) :=
  ⟨List.nodup_nil,
    fun c => ⟨fun h => absurd h (List.not_mem_nil c),
      fun ⟨i, hi, _⟩ => absurd hi (Finset.not_mem_empty i)⟩,
    Finset.empty_subset _⟩

theorem genPhase1_inv (base : String) (known : List Nat)
    (hb : base.length = 12) :
    GenInv base (genPhase1 base known ∅) := by
  have H : ∀ (l : List Nat) (st : List String × Finset Nat), GenInv base st →
      GenInv base (l.foldl
        (fun st s => (pyRange (s - 5) (min 100 (s + 6))).foldl (stepSuffix base ∅) st) st) := by
    intro l
    induction l with
    | nil => intro st h; exact h
    | cons s l' ih =>
        intro st h
        exact ih _ (foldl_stepSuffix_inv base _ st hb (pyRange_lt s) h)
  exact H known ([], ∅) (GenInv_init base)

/-- The unfolding equation of `genForBase`, recorded once so later proofs
can rewrite with it instead of unfolding (symbolic whnf of the 100-step
fold is prohibitively expensive). -/
theorem genForBase_eq (base : String) (known : List Nat) (processed : Finset String) :
    genForBase base known processed
      = (List.range 100).foldl (stepSuffix base processed) (genPhase1 base known processed) :=
  rfl

/-- The unfolding equation of `genPhase1`, for the same reason. -/
theorem genPhase1_eq (base : String) (known : List Nat) (processed : Finset String) :
    genPhase1 base known processed
      = known.foldl
          (fun st s => (pyRange (s - 5) (min 100 (s + 6))).foldl (stepSuffix base processed) st)
          ([], ∅) :=
  rfl

theorem stepSuffix_codes_mono (base : String) (processed : Finset String)
    (st : List String × Finset Nat) (i : Nat) (c : String) (hc : c ∈ st.1) :
    c ∈ (stepSuffix base processed st i).1 := by
  unfold stepSuffix
  by_cases him : i ∈ st.2
  · simpa [him] using hc
  · simp only [if_neg him]
    split
    · exact List.mem_append_left _ hc
    · exact hc

theorem stepSuffix_seenCodes (base : String) (processed : Finset String)
    (st : List String × Finset Nat) (i : Nat) (h : SeenCodes base st) :
    SeenCodes base (stepSuffix base processed st i) := by
  unfold stepSuffix
  by_cases him : i ∈ st.2
  · simpa [him] using h
  · simp only [if_neg him]
    split
    · intro j hj
      rcases Finset.mem_insert.mp hj with hj | hj
      · exact hj ▸ List.mem_append_right _ (List.mem_singleton_self _)
      · exact List.mem_append_left _ (h j hj)
    · exact h

theorem stepSuffix_covers (base : String) (processed : Finset String)
    (st : List String × Finset Nat) (i : Nat) (hb : base.length = 12) (hi : i < 100)
    (hsc : SeenCodes base st) :
    (base ++ fmtSuffix i) ∈ (stepSuffix base processed st i).1 ∨
      (base ++ fmtSuffix i) ∈ processed := by
  unfold stepSuffix
  by_cases him : i ∈ st.2
  · simp only [if_pos him]
    exact Or.inl (hsc i him)
  · simp only [if_neg him]
    by_cases hp : (base ++ fmtSuffix i) ∈ processed
    · exact Or.inr hp
    · rw [if_pos ⟨code_len base i hb hi, hp⟩]
      exact Or.inl (List.mem_append_right _ (List.mem_singleton_self _))

theorem stepSuffix_shape (base : String) (processed : Finset String)
    (st : List String × Finset Nat) (i : Nat) (c : String)
    (hc : c ∈ (stepSuffix base processed st i).1) :
    c ∈ st.1 ∨ c = base ++ fmtSuffix i := by
  unfold stepSuffix at hc
  by_cases him : i ∈ st.2
  · simp only [if_pos him] at hc
    exact Or.inl hc
  · simp only [if_neg him] at hc
    rcases hsplit : decide ((base ++ fmtSuffix i).length = 14 ∧ (base ++ fmtSuffix i) ∉ processed) with _ | _
    all_goals
      first
      | (rw [if_neg (by simpa using of_decide_eq_false hsplit)] at hc; exact Or.inl hc)
      | (rw [if_pos (of_decide_eq_true hsplit)] at hc
         rcases List.mem_append.mp hc with hc | hc
         · exact Or.inl hc
         · exact Or.inr (List.mem_singleton.mp hc))

attribute [irreducible] stepSuffix genPhase1

theorem foldl_stepSuffix_codes_mono (base : String) (processed : Finset String)
    (l : List Nat) (st : List String × Finset Nat) (c : String) (hc : c ∈ st.1) :
    c ∈ (l.foldl (stepSuffix base processed) st).1 := by
  induction l generalizing st with
  | nil => exact hc
  | cons j l' ih => exact ih _ (stepSuffix_codes_mono base processed st j c hc)

theorem foldl_stepSuffix_seenCodes (base : String) (processed : Finset String)
    (l : List Nat) (st : List String × Finset Nat) (h : SeenCodes base st) :
    SeenCodes base (l.foldl (stepSuffix base processed) st) := by
  induction l generalizing st with
  | nil => exact h
  | cons j l' ih => exact ih _ (stepSuffix_seenCodes base processed st j h)

theorem foldl_stepSuffix_covers (base : String) (processed : Finset String)
    (l : List Nat) (st : List String × Finset Nat) (hb : base.length = 12)
    (hl : ∀ i ∈ l, i < 100) (hsc : SeenCodes base st) :
    ∀ i ∈ l, (base ++ fmtSuffix i) ∈ (l.foldl (stepSuffix base processed) st).1 ∨
      (base ++ fmtSuffix i) ∈ processed := by
  induction l generalizing st with
  | nil => intro i hi; cases hi
  | cons j l' ih =>
      intro i hi
      rcases List.mem_cons.mp hi with hij | hil
      · subst hij
        rcases stepSuffix_covers base processed st i hb (hl i hi) hsc with hcv | hcv
        · exact Or.inl (List.foldl_cons _ _ ▸
            foldl_stepSuffix_codes_mono base processed l' _ _ hcv)
        · exact Or.inr hcv
      · exact ih _ (fun k hk => hl k (List.mem_cons_of_mem j hk))
          (stepSuffix_seenCodes base processed st j hsc) i hil

theorem foldl_stepSuffix_shape (base : String) (processed : Finset String)
    (l : List Nat) (st : List String × Finset Nat)
    (hl : ∀ i ∈ l, i < 100) (c : String)
    (hc : c ∈ (l.foldl (stepSuffix base processed) st).1) :
    c ∈ st.1 ∨ ∃ i, i < 100 ∧ c = base ++ fmtSuffix i := by
  induction l generalizing st with
  | nil => exact Or.inl hc
  | cons j l' ih =>
      rcases ih _ (fun k hk => hl k (List.mem_cons_of_mem j hk)) hc with hc' | hc'
      · rcases stepSuffix_shape base processed st j c hc' with hc2 | hc2
        · exact Or.inl hc2
        · exact Or.inr ⟨j, hl j (List.mem_cons_self j l'), hc2⟩
      · exact Or.inr hc'

theorem genPhase1_seenCodes (base : String) (known : List Nat) (processed : Finset String) :
    SeenCodes base (genPhase1 base known processed) := by
  rw [genPhase1_eq]
  have H : ∀ (l : List Nat) (st : List String × Finset Nat), SeenCodes base st →
      SeenCodes base (l.foldl
        (fun st s =>
          (pyRange (s - 5) (min 100 (s + 6))).foldl (stepSuffix base processed) st) st) := by
    intro l
    induction l with
    | nil => intro st h; exact h
    | cons s l' ih =>
        intro st h
        exact ih _ (foldl_stepSuffix_seenCodes base processed _ st h)
  exact H known ([], ∅) (fun j hj => absurd hj (Finset.not_mem_empty j))

theorem genPhase1_shape (base : String) (known : List Nat) (processed : Finset String)
    (c : String) (hc : c ∈ (genPhase1 base known processed).1) :
    ∃ i, i < 100 ∧ c = base ++ fmtSuffix i := by
  rw [genPhase1_eq] at hc
  have H : ∀ (l : List Nat) (st : List String × Finset Nat),
      (∀ c, c ∈ st.1 → ∃ i, i < 100 ∧ c = base ++ fmtSuffix i) →
      ∀ c, c ∈ (l.foldl
        (fun st s =>
          (pyRange (s - 5) (min 100 (s + 6))).foldl (stepSuffix base processed) st) st).1 →
        ∃ i, i < 100 ∧ c = base ++ fmtSuffix i := by
    intro l
    induction l with
    | nil => intro st h; exact h
    | cons s l' ih =>
        intro st h
        refine ih _ (fun c' hc' => ?_)
        rcases foldl_stepSuffix_shape base processed _ st (pyRange_lt s) c' hc' with h1 | h1
        · exact h c' h1
        · exact h1
  exact H known ([], ∅) (fun c' hc' => absurd hc' (List.not_mem_nil c')) c hc

theorem genForBase_covers (base : String) (known : List Nat) (processed : Finset String)
    (hb : base.length = 12) :
    ∀ i, i < 100 → (base ++ fmtSuffix i) ∈ (genForBase base known processed).1 ∨
      (base ++ fmtSuffix i) ∈ processed := by
  intro i hi
  rw [genForBase_eq]
  exact foldl_stepSuffix_covers base processed (List.range 100)
    (genPhase1 base known processed) hb (range_lt 100)
    (genPhase1_seenCodes base known processed) i (List.mem_range.mpr hi)

theorem genForBase_shape (base : String) (known : List Nat) (processed : Finset String)
    (c : String) (hc : c ∈ (genForBase base known processed).1) :
    ∃ i, i < 100 ∧ c = base ++ fmtSuffix i := by
  rw [genForBase_eq] at hc
  rcases foldl_stepSuffix_shape base processed (List.range 100)
    (genPhase1 base known processed) (range_lt 100) c hc with h1 | h1
  · exact genPhase1_shape base known processed c h1
  · exact h1

theorem genForBase_inv (base : String) (known : List Nat) (hb : base.length = 12) :
    GenInv base (genForBase base known ∅) := by
  rw [genForBase_eq]
  exact foldl_stepSuffix_inv base (List.range 100) (genPhase1 base known ∅) hb (range_lt 100)
    (genPhase1_inv base known hb)

theorem genForBase_seen_all (base : String) (known : List Nat) (hb : base.length = 12) :
    ∀ i, i < 100 → i ∈ (genForBase base known ∅).2 := by
  intro i hi
  rw [genForBase_eq]
  exact foldl_stepSuffix_seen_all base (List.range 100) (genPhase1 base known ∅) hb
    (range_lt 100) i (List.mem_range.mpr hi)

/-! ## Claim C4 — exhaustiveness of the fallback generation -/

/-- C4.  For a length-12 base (so every candidate code has the canonical
length 14), any set of known suffixes, and an empty exclude set, the
fallback generation — radius-5 neighborhood expansion around each known
suffix followed by the exhaustive sweep — emits exactly the codes of all
100 possible suffixes of that base, each exactly once (no duplicates). -/
theorem C4_generation_exhaustive (base : String) (known : List Nat)
    (hb : base.length = 12) :
    (genForBase base known ∅).1.Nodup ∧
    ∀ c, c ∈ (genForBase base known ∅).1 ↔
      ∃ i, i < 100 ∧ c = base ++ fmtSuffix i := by
  obtain ⟨hnd, hiff, hsub⟩ := genForBase_inv base known hb
  refine ⟨hnd, fun c => ⟨fun hc => ?_, fun ⟨i, hi, he⟩ => ?_⟩⟩
  · obtain ⟨i, hi, he⟩ := (hiff c).mp hc
    exact ⟨i, Finset.mem_range.mp (hsub hi), he⟩
  · exact (hiff c).mpr ⟨i, genForBase_seen_all base known hb i hi, he⟩

/-- C4, witness: the default base with one known suffix; the generated list
has no duplicates and contains exactly the codes of the 100 suffixes. -/
theorem C4_generation_exhaustive_witness :
    ("Z06572016300" : String).length = 12 ∧
    ((genForBase "Z06572016300" [3] ∅).1.Nodup ∧
      ∀ c, c ∈ (genForBase "Z06572016300" [3] ∅).1 ↔
        ∃ i, i < 100 ∧ c = "Z06572016300" ++ fmtSuffix i) :=
  ⟨by decide, C4_generation_exhaustive "Z06572016300" [3] (by decide)⟩

/-! ## Lemmas about spatial discovery and the probe list -/

theorem string_length_data (s : String) : s.length = s.data.length := rfl

theorem pyTake_len (c : String) (h : c.length = 14) : (pyTake c 12).length = 12 := by
  have hd : c.data.length = 14 := h
  show (c.data.take 12).length = 12
  rw [List.length_take]
  omega

theorem pyDrop_append (b s : String) (hb : b.length = 12) : pyDrop (b ++ s) 12 = s := by
  apply string_data_inj
  show ((b ++ s).data).drop 12 = s.data
  rw [String.data_append]
  have hd : b.data.length = 12 := hb
  rw [← hd, List.drop_left]

theorem fmt_isDigits : ∀ i < 100, isDigits (fmtSuffix i) = true := by decide

theorem discStep_inv (st : Disc) (c : String) (h : DiscInv st) : DiscInv (discStep st c) := by
  unfold discStep
  by_cases hskip : c = "" ∨ c ∈ st.processed
  · simpa [hskip] using h
  · simp only [if_neg hskip]
    by_cases hwf : c.length = 14 ∧ isDigits (pyDrop c 12) = true
    · simp only [if_pos hwf]
      constructor
      · intro b hb
        by_cases hbm : pyTake c 12 ∈ st.bases
        · simp only [if_pos hbm] at hb
          exact h.1 b hb
        · simp only [if_neg hbm, List.mem_append, List.mem_singleton] at hb
          rcases hb with hb | hb
          · exact h.1 b hb
          · exact hb ▸ pyTake_len c hwf.1
      · intro x
        simp only [Finset.mem_insert, List.mem_append, List.mem_singleton, h.2 x]
        exact Or.comm
    · simp only [if_neg hwf]
      constructor
      · exact h.1
      · intro x
        simp only [Finset.mem_insert, List.mem_append, List.mem_singleton, h.2 x]
        exact Or.comm

theorem discRun_inv (features : List String) : DiscInv (discRun features) := by
  unfold discRun
  have H : ∀ (l : List String) (st : Disc), DiscInv st → DiscInv (l.foldl discStep st) := by
    intro l
    induction l with
    | nil => intro st h; exact h
    | cons c l' ih => intro st h; exact ih _ (discStep_inv st c h)
  refine H features _ ⟨fun b hb => absurd hb (List.not_mem_nil b), fun x => ?_⟩
  simp

theorem discStep_processed_mono (st : Disc) (c : String) :
    st.processed ⊆ (discStep st c).processed := by
  unfold discStep
  by_cases hskip : c = "" ∨ c ∈ st.processed
  · simp [hskip]
  · simp only [if_neg hskip]
    by_cases hwf : c.length = 14 ∧ isDigits (pyDrop c 12) = true
    · simp only [if_pos hwf]
      exact Finset.subset_insert c st.processed
    · simp only [if_neg hwf]
      exact Finset.subset_insert c st.processed

theorem foldl_discStep_processed_mono (l : List String) (st : Disc) :
    st.processed ⊆ (l.foldl discStep st).processed := by
  induction l generalizing st with
  | nil => exact Finset.Subset.refl _
  | cons c l' ih => exact (discStep_processed_mono st c).trans (ih _)

theorem discStep_mem_processed (st : Disc) (c : String) (hne : c ≠ "") :
    c ∈ (discStep st c).processed := by
  unfold discStep
  by_cases hskip : c = "" ∨ c ∈ st.processed
  · rcases hskip with hc | hc
    · exact absurd hc hne
    · simpa [hc]
  · simp only [if_neg hskip]
    by_cases hwf : c.length = 14 ∧ isDigits (pyDrop c 12) = true
    · simp only [if_pos hwf]
      exact Finset.mem_insert_self c _
    · simp only [if_neg hwf]
      exact Finset.mem_insert_self c _

theorem discRun_mem_processed (features : List String) (c : String)
    (hc : c ∈ features) (hne : c ≠ "") : c ∈ (discRun features).processed := by
  unfold discRun
  have H : ∀ (l : List String) (st : Disc), c ∈ l → c ∈ (l.foldl discStep st).processed := by
    intro l
    induction l with
    | nil => intro st h; cases h
    | cons x l' ih =>
        intro st h
        rcases List.mem_cons.mp h with hcx | hcl
        · subst hcx
          exact foldl_discStep_processed_mono l' _ (discStep_mem_processed st c hne)
        · exact ih _ hcl
  exact H features _ hc

theorem genPltcodes_mem (bases : List String) (known : String → List Nat)
    (processed : Finset String) (c : String) :
    c ∈ genPltcodes bases known processed ↔
      ∃ b ∈ bases, c ∈ (genForBase b (sortNats (known b)) processed).1 := by
  unfold genPltcodes
  have H : ∀ (l : List String) (acc : List String),
      c ∈ l.foldl (fun a b => a ++ (genForBase b (sortNats (known b)) processed).1) acc ↔
        c ∈ acc ∨ ∃ b ∈ l, c ∈ (genForBase b (sortNats (known b)) processed).1 := by
    intro l
    induction l with
    | nil => intro acc; simp
    | cons b l' ih =>
        intro acc
        rw [List.foldl_cons, ih]
        simp only [List.mem_append, List.mem_cons]
        constructor
        · rintro ((h | h) | ⟨b', hb', h⟩)
          · exact Or.inl h
          · exact Or.inr ⟨b, Or.inl rfl, h⟩
          · exact Or.inr ⟨b', Or.inr hb', h⟩
        · rintro (h | ⟨b', (hb' | hb'), h⟩)
          · exact Or.inl (Or.inl h)
          · exact Or.inl (Or.inr (hb' ▸ h))
          · exact Or.inr ⟨b', hb', h⟩
  rw [H bases []]
  simp

theorem basesOrDefault_len (bases : List String) (h : ∀ b ∈ bases, b.length = 12) :
    ∀ b ∈ basesOrDefault bases, b.length = 12 := by
  unfold basesOrDefault
  by_cases hb : bases = []
  · simp only [if_pos hb, List.mem_singleton]
    intro b he
    subst he
    decide
  · simpa [hb] using h

/-- Every fallback probe is a well-formed code: canonical length 14 and an
all-digit suffix region. -/
theorem probesOf_wellFormed (features : List String) (c : String)
    (hc : c ∈ probesOf features) :
    c.length = 14 ∧ isDigits (pyDrop c 12) = true := by
  obtain ⟨b, hb, hcg⟩ := (genPltcodes_mem _ _ _ c).mp hc
  have hb12 : b.length = 12 :=
    basesOrDefault_len _ ((discRun_inv features).1) b hb
  obtain ⟨i, hi, he⟩ := genForBase_shape b _ _ c hcg
  subst he
  exact ⟨code_len b i hb12 hi, by rw [pyDrop_append b _ hb12]; exact fmt_isDigits i hi⟩

/-! ## Lemmas about the fallback drain loop -/

/-- If every identifier still missing is produced by some result in the
drained list, the drain ends with an empty missing set. -/
theorem drain_missing_empty (expected : Finset String)
    (results : List (String × Option Row)) (st : DrainSt)
    (hInv : st.missing = expected \ st.extracted)
    (hW : ∀ p ∈ st.missing, ∃ cr ∈ results, plnoOf cr.2 = some p) :
    (drain expected results st).missing = ∅ := by
  induction results generalizing st with
  | nil =>
      refine Finset.eq_empty_iff_forall_not_mem.mpr (fun p hp => ?_)
      obtain ⟨cr, hcr, _⟩ := hW p hp
      cases hcr
  | cons hd rest ih =>
      obtain ⟨c, r⟩ := hd
      simp only [drain]
      cases hr : plnoOf r with
      | none =>
          refine ih st hInv (fun p hp => ?_)
          obtain ⟨cr, hcr, hpl⟩ := hW p hp
          rcases List.mem_cons.mp hcr with hcr | hcr
          · rw [hcr] at hpl
            simp only at hpl
            rw [hr] at hpl
            cases hpl
          · exact ⟨cr, hcr, hpl⟩
      | some p0 =>
          by_cases hp0 : p0 ∈ st.missing
          · simp only [if_pos hp0]
            by_cases he :
                (expected \ insert p0 st.extracted : Finset String) = ∅
            · simp only [if_pos he]
              exact he
            · simp only [if_neg he]
              refine ih _ rfl (fun p hp => ?_)
              simp only [Finset.mem_sdiff, Finset.mem_insert] at hp
              have hpm : p ∈ st.missing := by
                rw [hInv]
                exact Finset.mem_sdiff.mpr ⟨hp.1, fun hx => hp.2 (Or.inr hx)⟩
              obtain ⟨cr, hcr, hpl⟩ := hW p hpm
              rcases List.mem_cons.mp hcr with hcr | hcr
              · rw [hcr] at hpl
                simp only at hpl
                rw [hr] at hpl
                exact absurd (Or.inl (Option.some.inj hpl).symm) hp.2
              · exact ⟨cr, hcr, hpl⟩
          · simp only [if_neg hp0]
            refine ih st hInv (fun p hp => ?_)
            obtain ⟨cr, hcr, hpl⟩ := hW p hp
            rcases List.mem_cons.mp hcr with hcr | hcr
            · rw [hcr] at hpl
              simp only at hpl
              rw [hr] at hpl
              exact absurd ((Option.some.inj hpl) ▸ hp) hp0
            · exact ⟨cr, hcr, hpl⟩

/-- Once the missing set is empty, the drain loop adds nothing more. -/
theorem drain_missing_already_empty (expected : Finset String)
    (results : List (String × Option Row)) (st : DrainSt) (h : st.missing = ∅) :
    drain expected results st = st := by
  induction results with
  | nil => rfl
  | cons hd rest ih =>
      obtain ⟨c, r⟩ := hd
      simp only [drain]
      cases hr : plnoOf r with
      | none => exact ih
      | some p0 =>
          rw [h]
          simp only [Finset.not_mem_empty, if_false]
          exact ih

/-! ## Claim C5 — convergence of the exploration -/

/-- C5.  If every expected identifier (necessarily distinct from the
`"N/A"` sentinel, which the reconciliation filters out) is the Plot Number
of a record reachable via some code `b ++ suffix` with `b` an observed
base and suffix in the valid range `[0, 99]`, then the area run ends with
an empty missing set: each such identifier is either extracted during
spatial discovery or recovered by the fallback probes. -/
theorem C5_convergence (features : List String) (fetch : String → Option Row)
    (expected : Finset String)
    (H : ∀ p ∈ expected, p ≠ "N/A" ∧ ∃ b ∈ (discRun features).bases, ∃ i, i < 100 ∧
      plnoOf (fetch (b ++ fmtSuffix i)) = some p) :
    (finalState features fetch expected).missing = ∅ := by
  by_cases h0 : missing0 features fetch expected = ∅
  · unfold finalState
    rw [if_pos h0]
    exact h0
  · unfold finalState
    rw [if_neg h0]
    refine drain_missing_empty expected _ _ rfl (fun p hp => ?_)
    have hpe : p ∈ expected := (Finset.mem_sdiff.mp hp).1
    have hpx : p ∉ extractedPlnos (extractedData features fetch) :=
      (Finset.mem_sdiff.mp hp).2
    obtain ⟨hpn, b, hbm, i, hi, hfetch⟩ := H p hpe
    have hb12 : b.length = 12 := (discRun_inv features).1 b hbm
    have hbd : b ∈ basesOrDefault (discRun features).bases := by
      unfold basesOrDefault
      rw [if_neg (List.ne_nil_of_mem hbm)]
      exact hbm
    rcases genForBase_covers b (sortNats ((discRun features).known b))
        (discRun features).processed hb12 i hi with hin | hproc
    · refine ⟨(b ++ fmtSuffix i, fetch (b ++ fmtSuffix i)), ?_, hfetch⟩
      exact List.mem_map_of_mem _ ((genPltcodes_mem _ _ _ _).mpr ⟨b, hbd, hin⟩)
    · exfalso
      obtain ⟨row, hrow, hpn2⟩ := Option.bind_eq_some.mp hfetch
      have hcp : (b ++ fmtSuffix i) ∈ (discRun features).plotcodes :=
        ((discRun_inv features).2 _).mp hproc
      have hrd : row ∈ extractedData features fetch :=
        List.mem_filterMap.mpr ⟨b ++ fmtSuffix i, hcp, hrow⟩
      apply hpx
      unfold extractedPlnos
      refine List.mem_toFinset.mpr (List.mem_filterMap.mpr ⟨row, hrd, ?_⟩)
      rw [hpn2]
      rw [if_neg (by simpa using hpn)]
      rfl

/-! ## Claim C7 — what the drain loop adds, and when fetching stops -/

/-- C7, amended.  (1) Every row the drain loop adds has a Plot Number that
was in the missing set when the loop started.  (2) Once the missing set is
empty nothing further is added.  (3) The result-collection loop
short-circuits: as soon as one drained result empties the missing set, the
remaining results are ignored.  (4) But the *fetches* are not stopped: when
the fallback phase runs, the list of codes fetched is the entire generated
probe list, because every probe is submitted to the executor before any
result is drained and executor shutdown waits for queued tasks. -/
theorem C7_drain_behavior :
    (∀ (expected : Finset String) (results : List (String × Option Row)) (st : DrainSt),
      st.missing = expected \ st.extracted →
      ∀ row ∈ (drain expected results st).data, row ∈ st.data ∨
        ∃ p, getA row "Plot Number" = some p ∧ p ∈ st.missing) ∧
    (∀ (expected : Finset String) (results : List (String × Option Row)) (st : DrainSt),
      st.missing = ∅ → drain expected results st = st) ∧
    (∀ (expected : Finset String) (results rest : List (String × Option Row)) (st : DrainSt),
      (drain expected results st).missing = ∅ →
      drain expected (results ++ rest) st = drain expected results st) ∧
    (∀ (features : List String) (fetch : String → Option Row) (expected : Finset String),
      missing0 features fetch expected ≠ ∅ →
      fallbackFetched features fetch expected = probesOf features) := by
  have hAdd : ∀ (expected : Finset String) (results : List (String × Option Row))
      (st : DrainSt), st.missing = expected \ st.extracted →
      ∀ row ∈ (drain expected results st).data, row ∈ st.data ∨
        ∃ p, getA row "Plot Number" = some p ∧ p ∈ st.missing := by
    intro expected results
    induction results with
    | nil => intro st _ row hrow; exact Or.inl hrow
    | cons hd rest ih =>
        obtain ⟨c, r⟩ := hd
        intro st hInv row hrow
        simp only [drain] at hrow
        cases hr : plnoOf r with
        | none =>
            rw [hr] at hrow
            exact ih st hInv row hrow
        | some p0 =>
            rw [hr] at hrow
            by_cases hp0 : p0 ∈ st.missing
            · simp only [if_pos hp0] at hrow
              by_cases he : (expected \ insert p0 st.extracted : Finset String) = ∅
              · simp only [if_pos he] at hrow
                rcases List.mem_append.mp hrow with hrow | hrow
                · exact Or.inl hrow
                · obtain ⟨row', hrow', hpl⟩ := Option.bind_eq_some.mp hr
                  rw [List.mem_singleton.mp hrow, hrow']
                  exact Or.inr ⟨p0, hpl, hp0⟩
              · simp only [if_neg he] at hrow
                rcases ih _ rfl row hrow with hrow2 | hrow2
                · rcases List.mem_append.mp hrow2 with hrow3 | hrow3
                  · exact Or.inl hrow3
                  · obtain ⟨row', hrow', hpl⟩ := Option.bind_eq_some.mp hr
                    rw [List.mem_singleton.mp hrow3, hrow']
                    exact Or.inr ⟨p0, hpl, hp0⟩
                · obtain ⟨p, hpl, hpm⟩ := hrow2
                  simp only [Finset.mem_sdiff, Finset.mem_insert] at hpm
                  refine Or.inr ⟨p, hpl, ?_⟩
                  rw [hInv]
                  exact Finset.mem_sdiff.mpr ⟨hpm.1, fun hx => hpm.2 (Or.inr hx)⟩
            · simp only [if_neg hp0] at hrow
              exact ih st hInv row hrow
  refine ⟨hAdd, drain_missing_already_empty, ?_, ?_⟩
  · intro expected results
    induction results with
    | nil =>
        intro rest st hone
        simp only [List.nil_append]
        exact drain_missing_already_empty expected rest st hone
    | cons hd tl ih =>
        intro rest st hone
        obtain ⟨c, r⟩ := hd
        cases hr : plnoOf r with
        | none =>
            simp only [List.cons_append, drain, hr] at hone ⊢
            exact ih rest st hone
        | some p0 =>
            simp only [List.cons_append, drain, hr] at hone ⊢
            by_cases hp0 : p0 ∈ st.missing
            · by_cases he : (expected \ insert p0 st.extracted : Finset String) = ∅
              · simp only [if_pos hp0, if_pos he]
              · simp only [if_pos hp0, if_neg he] at hone ⊢
                exact ih rest _ hone
            · simp only [if_neg hp0] at hone ⊢
              exact ih rest st hone
  · intro features fetch expected h0
    unfold fallbackFetched
    rw [if_neg h0]

/-! ## Claim C8 — malformed codes are rejected from decomposition but fetched -/

/-- C8, counterexample.  The spatial feature code `"ABCDEFGHIJKLMN"` has
the canonical length 14 but a non-digit suffix region: discovery discards
it from the base decomposition (no base recorded), yet appends it to the
`plotcodes` fetch queue — so it *is* fetched during the discovery phase,
contrary to the claim that it is never probed or fetched. -/
theorem C8_counterexample :
    ¬(("ABCDEFGHIJKLMN" : String).length = 14 ∧
        isDigits (pyDrop "ABCDEFGHIJKLMN" 12) = true) ∧
    (discRun ["ABCDEFGHIJKLMN"]).plotcodes = ["ABCDEFGHIJKLMN"] ∧
    (discRun ["ABCDEFGHIJKLMN"]).bases = [] ∧
    extractedData ["ABCDEFGHIJKLMN"] (fun c => some [("Plotcode", c)])
      = [[("Plotcode", "ABCDEFGHIJKLMN")]] := by
  refine ⟨by decide, by decide, by decide, by decide⟩

/-- C8, amended.  A malformed feature code (length ≠ 14 or non-digit
suffix region) is never decomposed into the base index (bases and known
suffixes are unchanged by its discovery step) and never appears among the
fallback probes (which are all well-formed); but it *is* queued for
fetching during spatial discovery like any other non-empty, unseen
feature code. -/
theorem C8_malformed_never_decomposed (features : List String) (c : String)
    (hc : c ∈ features)
    (hm : ¬(c.length = 14 ∧ isDigits (pyDrop c 12) = true)) :
    (∀ st : Disc, (discStep st c).bases = st.bases ∧ (discStep st c).known = st.known) ∧
    c ∉ probesOf features ∧
    (c ≠ "" → c ∈ (discRun features).plotcodes) := by
  refine ⟨fun st => ?_, fun hp => hm (probesOf_wellFormed features c hp), fun hne => ?_⟩
  · unfold discStep
    by_cases hskip : c = "" ∨ c ∈ st.processed
    · simp [hskip]
    · simp only [if_neg hskip, if_neg hm]
      exact ⟨by trivial, by trivial⟩
  · exact ((discRun_inv features).2 c).mp (discRun_mem_processed features c hc hne)

set_option allowUnsafeReducibility true in
attribute [semireducible] stepSuffix genPhase1

/-- C8, witness: the amended theorem applied to the concrete malformed
feature code. -/
theorem C8_malformed_never_decomposed_witness :
    ("ABCDEFGHIJKLMN" ∈ (["ABCDEFGHIJKLMN"] : List String)) ∧
    ¬(("ABCDEFGHIJKLMN" : String).length = 14 ∧
        isDigits (pyDrop "ABCDEFGHIJKLMN" 12) = true) ∧
    ("ABCDEFGHIJKLMN" ∉ probesOf ["ABCDEFGHIJKLMN"] ∧
      ("ABCDEFGHIJKLMN" ≠ "" → "ABCDEFGHIJKLMN" ∈ (discRun ["ABCDEFGHIJKLMN"]).plotcodes)) :=
  ⟨by decide, by decide,
    (C8_malformed_never_decomposed ["ABCDEFGHIJKLMN"] "ABCDEFGHIJKLMN"
      (by decide) (by decide)).2⟩

/-- C5, witness: one feature code `A0000000000100` is discovered; the
expected identifier `P1` is only reachable through the neighboring suffix
code `A0000000000101`, which the fallback probes; the run converges to an
empty missing set. -/
theorem C5_convergence_witness :
    (∀ p ∈ ({"P1"} : Finset String), p ≠ "N/A" ∧
      ∃ b ∈ (discRun ["A0000000000100"]).bases, ∃ i, i < 100 ∧
        plnoOf (fetchW (b ++ fmtSuffix i)) = some p) ∧
    (finalState ["A0000000000100"] fetchW {"P1"}).missing = ∅ :=
  ⟨by decide, C5_convergence ["A0000000000100"] fetchW {"P1"} (by decide)⟩

/-- C7, counterexample.  In the concrete run with one discovered code and
the expected set `{P1}`: the missing set is nonempty, so the fallback
phase runs; draining just the *first* completed probe result already
empties the missing set; yet the list of codes fetched during the fallback
phase is the entire generated probe list — 99 codes — because the executor
comprehension submits every probe before `as_completed` yields anything
and `ThreadPoolExecutor` shutdown waits for (does not cancel) queued
tasks.  The `break` stops result collection, not fetching, contradicting
the claim that the exploration "stops fetching probes as soon as the
missing set becomes empty rather than exhausting the generated probe
list". -/
theorem C7_counterexample :
    missing0 ["A0000000000100"] fetchW {"P1"} ≠ ∅ ∧
    (drain {"P1"} ((fallbackResults ["A0000000000100"] fetchW).take 1)
      (initDrainSt ["A0000000000100"] fetchW {"P1"})).missing = ∅ ∧
    (fallbackFetched ["A0000000000100"] fetchW {"P1"}).length = 99 ∧
    (probesOf ["A0000000000100"]).length = 99 :=
  ⟨by decide, by decide, by decide, by decide⟩

/-- C7, witness: the amended theorem's early-termination conjunct at a
concrete state whose missing set is empty — the drain adds nothing. -/
theorem C7_drain_behavior_witness :
    ((⟨[], ∅, ∅, ∅⟩ : DrainSt).missing = ∅) ∧
    drain {"P"} [("c", none)] ⟨[], ∅, ∅, ∅⟩ = ⟨[], ∅, ∅, ∅⟩ :=
  ⟨rfl, C7_drain_behavior.2.1 {"P"} [("c", none)] ⟨[], ∅, ∅, ∅⟩ rfl⟩

end Kiadb
